import Mathlib

/-!
Verification of `tools/makefont.py` (bitmap font compiler).

The compiler reads source text, strips leading whitespace from the whole
document, splits it into lines, matches the maximal leading run of the
characters `.`, `*`, `@` on each line (`BITMAP_PATTERN = r'([.*@]+)'`,
anchored via `re.match`), maps `.` to bit 0 and `*`/`@` to bit 1, packs the
bits most-significant-first by `functools.reduce (fun a b => 2*a + b)`, and
converts the packed integer to one byte with `int.to_bytes(1, 'little')`,
which raises `OverflowError` when the value does not fit in one byte.
The embedding works over `List Char`; bytes are `Nat` values below 256 and
the `OverflowError` raised by `to_bytes` is `Except.error ()`.
-/

/-- The characters Python's `str.lstrip()` (no argument) strips: the
characters for which `str.isspace()` holds. -/
def pyIsSpace (c : Char) : Bool :=
  c = ' ' || c = '\t' || c = '\n' || c = '\x0d' || c = '\x0b' || c = '\x0c' ||
  c = '\x1c' || c = '\x1d' || c = '\x1e' || c = '\x1f' || c = '\x85' ||
  c = '\xa0' || c = '\u1680' || ('\u2000' ≤ c && c ≤ '\u200a') ||
  c = '\u2028' || c = '\u2029' || c = '\u202f' || c = '\u205f' || c = '\u3000'

/-- `src.lstrip()`: drop the leading whitespace of the whole document. -/
def lstrip (s : List Char) : List Char :=
  s.dropWhile pyIsSpace

/-- The line-break characters recognized by Python's `str.splitlines()`. -/
def isLineBreak (c : Char) : Bool :=
  c = '\n' || c = '\x0d' || c = '\x0b' || c = '\x0c' ||
  c = '\x1c' || c = '\x1d' || c = '\x1e' || c = '\x85' ||
  c = '\u2028' || c = '\u2029'

/-- Worker for `splitlines`; `acc` holds the current line reversed.
A `"\x0d\x0a"` pair counts as a single break; a trailing break opens no
new empty line, matching Python's `str.splitlines()`. -/
def splitlinesAux : List Char → List Char → List (List Char)
  | [], acc => if acc.isEmpty then [] else [acc.reverse]
  | [c], acc =>
      if isLineBreak c then [acc.reverse] else [(c :: acc).reverse]
  | c :: d :: rest, acc =>
      if c = '\x0d' ∧ d = '\n' then acc.reverse :: splitlinesAux rest []
      else if isLineBreak c then acc.reverse :: splitlinesAux (d :: rest) []
      else splitlinesAux (d :: rest) (c :: acc)

/-- `src.splitlines()`. -/
def splitlines (s : List Char) : List (List Char) :=
  splitlinesAux s []

/-- Membership in the character class of `BITMAP_PATTERN = r'([.*@]+)'`. -/
def isBitmapChar (c : Char) : Bool :=
  c = '.' || c = '*' || c = '@'

/-- `BITMAP_PATTERN.match(line)`: the maximal run of `[.*@]` characters
anchored at the start of the line (empty when the match fails, since the
pattern requires at least one character). -/
def bitmapMatch (line : List Char) : List Char :=
  line.takeWhile isBitmapChar

/-- `0 if x == '.' else 1`: the bit encoded by one matched symbol. -/
def bitOf (c : Char) : Nat :=
  if c = '.' then 0 else 1

/-- `functools.reduce(lambda a, b: 2*a + b, bits)` on the non-empty bit list
`map bitOf (c :: cs)`: the first element is the initial accumulator. -/
def packRun (c : Char) (cs : List Char) : Nat :=
  cs.foldl (fun a d => 2 * a + bitOf d) (bitOf c)

/-- The loop body of `compile` over the line list: skip a line with no
match, otherwise pack the matched run and convert it to one byte;
`int.to_bytes(1, 'little')` raises `OverflowError` (here `Except.error ()`)
when the value is 256 or more. -/
def compileLines : List (List Char) → Except Unit (List Nat)
  | [] => Except.ok []
  | line :: rest =>
    match bitmapMatch line with
    | [] => compileLines rest
    | c :: cs =>
      if packRun c cs < 256 then
        match compileLines rest with
        | Except.ok bs => Except.ok (packRun c cs :: bs)
        | Except.error e => Except.error e
      else Except.error ()

/-- `compile(src)`: strip the document's leading whitespace, split into
lines, and process each line in order. -/
def compile (src : List Char) : Except Unit (List Nat) :=
  compileLines (splitlines (lstrip src))

/-- The value of a symbol run read as a binary number, `.` = 0 and
`*`/`@` = 1, first symbol most significant: the accumulation
`value = 0; for each bit b: value = value*2 + b`. -/
def binVal (g : List Char) : Nat :=
  g.foldl (fun a c => 2 * a + bitOf c) 0

/-- Does a line start with a recognized glyph-row symbol? -/
def hasGlyphRow (l : List Char) : Bool :=
  match l with
  | [] => false
  | c :: _ => isBitmapChar c

/-- The number of lines (after the document-level strip) whose first
character is a recognized symbol. -/
def recognizedCount (s : List Char) : Nat :=
  (splitlines (lstrip s)).countP hasGlyphRow

/-- Normalize the two "on" symbols to a single one. -/
def normOn (c : Char) : Char :=
  if c = '@' then '*' else c

/-- Two characters that differ at most by swapping `*` and `@`. -/
def charEquiv (c d : Char) : Prop :=
  c = d ∨ ((c = '*' ∨ c = '@') ∧ (d = '*' ∨ d = '@'))

theorem bitOf_le_one (c : Char) : bitOf c ≤ 1 := by
  unfold bitOf; split <;> simp

theorem binVal_cons (c : Char) (cs : List Char) :
    binVal (c :: cs) = cs.foldl (fun a d => 2 * a + bitOf d) (bitOf c) := by
  simp [binVal]

theorem packRun_eq_binVal (c : Char) (cs : List Char) :
    packRun c cs = binVal (c :: cs) := by
  simp [packRun, binVal]

theorem foldl_bits_shift (g : List Char) :
    ∀ a : Nat, g.foldl (fun x c => 2 * x + bitOf c) a
      = a * 2 ^ g.length + binVal g := by
  induction g with
  | nil => intro a; simp [binVal]
  | cons c cs ih =>
      intro a
      simp only [List.foldl_cons, List.length_cons, binVal_cons]
      rw [ih (2 * a + bitOf c), ih (bitOf c)]
      ring

theorem binVal_lt_two_pow (g : List Char) : binVal g < 2 ^ g.length := by
  cases g with
  | nil => simp [binVal]
  | cons c cs =>
      rw [binVal_cons, foldl_bits_shift]
      have h1 := bitOf_le_one c
      have h2 := binVal_lt_two_pow cs
      have h3 : 0 < 2 ^ cs.length := by positivity
      simp only [List.length_cons, pow_succ]
      nlinarith

theorem binVal_append (g t : List Char) :
    binVal (g ++ t) = binVal g * 2 ^ t.length + binVal t := by
  show (g ++ t).foldl (fun a c => 2 * a + bitOf c) 0 = _
  rw [List.foldl_append, foldl_bits_shift]
  rfl

theorem binVal_eq_zero (g : List Char) (h : ∀ c ∈ g, c = '.') :
    binVal g = 0 := by
  induction g with
  | nil => simp [binVal]
  | cons c cs ih =>
      have hc : c = '.' := h c (by simp)
      rw [binVal_cons, hc]
      have hb : bitOf '.' = 0 := by decide
      rw [hb]
      exact ih (fun d hd => h d (List.mem_cons_of_mem _ hd))

theorem one_le_binVal (g : List Char) (c : Char) (hc : c ∈ g)
    (hne : c ≠ '.') : 1 ≤ binVal g := by
  induction g with
  | nil => simp at hc
  | cons d ds ih =>
      rw [binVal_cons, foldl_bits_shift]
      have hpow : 0 < 2 ^ ds.length := by positivity
      rcases List.mem_cons.mp hc with h | h
      · subst h
        have hb : bitOf c = 1 := by simp [bitOf, hne]
        rw [hb]
        omega
      · have h1 := ih h
        omega

theorem not_space_of_bitmap (c : Char) (h : isBitmapChar c = true) :
    pyIsSpace c = false := by
  simp only [isBitmapChar, Bool.or_eq_true, decide_eq_true_eq] at h
  rcases h with (h | h) | h <;> subst h <;> decide

theorem not_break_of_bitmap (c : Char) (h : isBitmapChar c = true) :
    isLineBreak c = false := by
  simp only [isBitmapChar, Bool.or_eq_true, decide_eq_true_eq] at h
  rcases h with (h | h) | h <;> subst h <;> decide

theorem lstrip_cons_of_not_space (c : Char) (t : List Char)
    (h : pyIsSpace c = false) : lstrip (c :: t) = c :: t := by
  simp [lstrip, List.dropWhile_cons, h]

theorem cr_is_break : isLineBreak '\x0d' = true := by decide

theorem splitlinesAux_no_break (s : List Char) :
    ∀ acc, s ≠ [] → (∀ c ∈ s, isLineBreak c = false) →
      splitlinesAux s acc = [acc.reverse ++ s] := by
  induction s with
  | nil => intro acc h _; exact absurd rfl h
  | cons c tail ih =>
      intro acc _ h
      have hc : isLineBreak c = false := h c (by simp)
      cases tail with
      | nil => simp [splitlinesAux, hc]
      | cons d r =>
          have hccr : ¬ (c = '\x0d' ∧ d = '\n') := by
            rintro ⟨h1, _⟩
            rw [h1, cr_is_break] at hc
            exact Bool.noConfusion hc
          have hrec := ih (c :: acc) (by simp)
            (fun e he => h e (List.mem_cons_of_mem _ he))
          simp only [splitlinesAux]
          rw [if_neg hccr, if_neg (by simp [hc])]
          rw [hrec]
          simp

theorem splitlines_no_break (s : List Char) (h0 : s ≠ [])
    (h : ∀ c ∈ s, isLineBreak c = false) : splitlines s = [s] := by
  have := splitlinesAux_no_break s [] h0 h
  simpa [splitlines] using this

theorem bitmapMatch_append (g t : List Char)
    (hg : ∀ c ∈ g, isBitmapChar c = true)
    (ht : ∀ c, t.head? = some c → isBitmapChar c = false) :
    bitmapMatch (g ++ t) = g := by
  induction g with
  | nil =>
      simp only [List.nil_append, bitmapMatch]
      cases t with
      | nil => simp
      | cons c r =>
          have hcr := ht c rfl
          simp [List.takeWhile_cons, hcr]
  | cons c cs ih =>
      have hc := hg c (by simp)
      simp only [List.cons_append, bitmapMatch, List.takeWhile_cons, hc,
        if_true]
      exact congrArg (c :: ·) (ih (fun d hd => hg d (List.mem_cons_of_mem _ hd)))

theorem bitmapMatch_eq_self (g : List Char)
    (hg : ∀ c ∈ g, isBitmapChar c = true) : bitmapMatch g = g :=
  List.takeWhile_eq_self_iff.mpr hg

theorem compile_single (g : List Char) (h0 : g ≠ [])
    (hg : ∀ c ∈ g, isBitmapChar c = true) :
    compile g =
      if binVal g < 256 then Except.ok [binVal g] else Except.error () := by
  cases g with
  | nil => exact absurd rfl h0
  | cons c cs =>
      have hc := hg c (by simp)
      have hl : lstrip (c :: cs) = c :: cs :=
        lstrip_cons_of_not_space c cs (not_space_of_bitmap c hc)
      have hs : splitlines (c :: cs) = [c :: cs] :=
        splitlines_no_break _ (by simp)
          (fun d hd => not_break_of_bitmap d (hg d hd))
      have hm : bitmapMatch (c :: cs) = c :: cs := bitmapMatch_eq_self _ hg
      show compileLines (splitlines (lstrip (c :: cs))) = _
      rw [hl, hs]
      simp only [compileLines, hm, packRun_eq_binVal]

theorem hasGlyphRow_eq_false_of_match_nil (l : List Char)
    (hm : bitmapMatch l = []) : hasGlyphRow l = false := by
  cases l with
  | nil => rfl
  | cons c t =>
      simp only [bitmapMatch, List.takeWhile_cons] at hm
      by_cases hc : isBitmapChar c = true
      · rw [if_pos hc] at hm; exact absurd hm (by simp)
      · simp only [hasGlyphRow]
        exact Bool.not_eq_true _ |>.mp hc

theorem hasGlyphRow_eq_true_of_match_cons (l : List Char) (c : Char)
    (cs : List Char) (hm : bitmapMatch l = c :: cs) :
    hasGlyphRow l = true := by
  cases l with
  | nil => simp [bitmapMatch] at hm
  | cons d t =>
      simp only [bitmapMatch, List.takeWhile_cons] at hm
      by_cases hd : isBitmapChar d = true
      · simpa [hasGlyphRow] using hd
      · rw [if_neg hd] at hm; exact absurd hm (by simp)

theorem compileLines_ok_length (ls : List (List Char)) :
    ∀ bs, compileLines ls = Except.ok bs →
      bs.length = ls.countP hasGlyphRow := by
  induction ls with
  | nil =>
      intro bs h
      simp only [compileLines] at h
      cases h
      simp
  | cons line rest ih =>
      intro bs h
      rw [List.countP_cons]
      cases hm : bitmapMatch line with
      | nil =>
          rw [hasGlyphRow_eq_false_of_match_nil line hm]
          simp only [compileLines, hm] at h
          simpa using ih bs h
      | cons c cs =>
          rw [hasGlyphRow_eq_true_of_match_cons line c cs hm]
          simp only [compileLines, hm] at h
          by_cases hv : packRun c cs < 256
          · rw [if_pos hv] at h
            cases hrec : compileLines rest with
            | ok bs2 =>
                rw [hrec] at h
                cases h
                simp [ih bs2 hrec]
            | error e => rw [hrec] at h; cases h
          · rw [if_neg hv] at h; cases h

theorem compileLines_ok_of_fit (ls : List (List Char))
    (h : ∀ l ∈ ls, bitmapMatch l = [] ∨ binVal (bitmapMatch l) < 256) :
    ∃ bs, compileLines ls = Except.ok bs := by
  induction ls with
  | nil => exact ⟨[], rfl⟩
  | cons line rest ih =>
      obtain ⟨bs, hbs⟩ := ih (fun l hl => h l (List.mem_cons_of_mem _ hl))
      cases hm : bitmapMatch line with
      | nil =>
          refine ⟨bs, ?_⟩
          simp only [compileLines, hm]
          exact hbs
      | cons c cs =>
          have hv : binVal (c :: cs) < 256 := by
            rcases h line (by simp) with h1 | h1
            · rw [hm] at h1; exact absurd h1 (by simp)
            · rwa [hm] at h1
          refine ⟨packRun c cs :: bs, ?_⟩
          simp only [compileLines, hm]
          rw [if_pos (by rwa [packRun_eq_binVal]), hbs]

theorem pyIsSpace_normOn (c : Char) : pyIsSpace (normOn c) = pyIsSpace c := by
  by_cases h : c = '@'
  · subst h; decide
  · simp [normOn, h]

theorem isLineBreak_normOn (c : Char) :
    isLineBreak (normOn c) = isLineBreak c := by
  by_cases h : c = '@'
  · subst h; decide
  · simp [normOn, h]

theorem isBitmapChar_normOn (c : Char) :
    isBitmapChar (normOn c) = isBitmapChar c := by
  by_cases h : c = '@'
  · subst h; decide
  · simp [normOn, h]

theorem bitOf_normOn (c : Char) : bitOf (normOn c) = bitOf c := by
  by_cases h : c = '@'
  · subst h; decide
  · simp [normOn, h]

theorem normOn_eq_char (c x : Char) (hx1 : x ≠ '*') (hx2 : x ≠ '@') :
    normOn c = x ↔ c = x := by
  unfold normOn
  by_cases h : c = '@'
  · subst h
    rw [if_pos rfl]
    constructor
    · intro h2; exact absurd h2.symm hx1
    · intro h2; exact absurd h2.symm hx2
  · rw [if_neg h]

theorem normOn_eq_of_equiv (c d : Char) (h : charEquiv c d) :
    normOn c = normOn d := by
  rcases h with h | ⟨hc, hd⟩
  · rw [h]
  · rcases hc with hc | hc <;> rcases hd with hd | hd <;>
      subst hc <;> subst hd <;> rfl

theorem splitlinesAux_map_normOn :
    ∀ (s acc : List Char),
      splitlinesAux (s.map normOn) (acc.map normOn)
        = (splitlinesAux s acc).map (List.map normOn)
  | [], acc => by cases acc <;> simp [splitlinesAux]
  | [c], acc => by
      simp only [List.map_cons, List.map_nil, splitlinesAux,
        isLineBreak_normOn]
      by_cases hb : isLineBreak c = true
      · simp [hb]
      · simp [hb]
  | c :: d :: rest, acc => by
      simp only [List.map_cons, splitlinesAux,
        normOn_eq_char c '\x0d' (by decide) (by decide),
        normOn_eq_char d '\n' (by decide) (by decide),
        isLineBreak_normOn]
      by_cases hcd : c = '\x0d' ∧ d = '\n'
      · rw [if_pos hcd, if_pos hcd]
        have h1 := splitlinesAux_map_normOn rest []
        simp only [List.map_nil] at h1
        simp [h1]
      · rw [if_neg hcd, if_neg hcd]
        by_cases hb : isLineBreak c = true
        · rw [if_pos hb, if_pos hb]
          have h1 := splitlinesAux_map_normOn (d :: rest) []
          simp only [List.map_nil, List.map_cons] at h1
          simp only [List.map_cons]
          simp [h1]
        · rw [if_neg hb, if_neg hb]
          have h1 := splitlinesAux_map_normOn (d :: rest) (c :: acc)
          simp only [List.map_cons] at h1 ⊢
          exact h1

theorem splitlines_map_normOn (s : List Char) :
    splitlines (s.map normOn) = (splitlines s).map (List.map normOn) := by
  have := splitlinesAux_map_normOn s []
  simpa [splitlines] using this

theorem dropWhile_space_map_normOn (s : List Char) :
    (s.map normOn).dropWhile pyIsSpace
      = (s.dropWhile pyIsSpace).map normOn := by
  induction s with
  | nil => simp
  | cons c t ih =>
      simp only [List.map_cons, List.dropWhile_cons, pyIsSpace_normOn]
      by_cases h : pyIsSpace c = true
      · simp [h, ih]
      · simp [h]

theorem bitmapMatch_map_normOn (l : List Char) :
    bitmapMatch (l.map normOn) = (bitmapMatch l).map normOn := by
  unfold bitmapMatch
  induction l with
  | nil => simp
  | cons c t ih =>
      simp only [List.map_cons, List.takeWhile_cons, isBitmapChar_normOn]
      by_cases h : isBitmapChar c = true
      · simp [h, ih]
      · simp [h]

theorem packRun_map_normOn (c : Char) (cs : List Char) :
    packRun (normOn c) (cs.map normOn) = packRun c cs := by
  unfold packRun
  rw [List.foldl_map, bitOf_normOn]
  simp [bitOf_normOn]

theorem compileLines_map_normOn (ls : List (List Char)) :
    compileLines (ls.map (List.map normOn)) = compileLines ls := by
  induction ls with
  | nil => rfl
  | cons line rest ih =>
      simp only [List.map_cons, compileLines, bitmapMatch_map_normOn]
      cases hm : bitmapMatch line with
      | nil => simpa using ih
      | cons c cs =>
          simp only [List.map_cons, packRun_map_normOn, ih]

theorem compile_map_normOn (s : List Char) :
    compile (s.map normOn) = compile s := by
  show compileLines (splitlines ((s.map normOn).dropWhile pyIsSpace)) = _
  rw [dropWhile_space_map_normOn, splitlines_map_normOn,
    compileLines_map_normOn]
  rfl

/-- C1: for a line that is a single run of at most 8 recognized symbols,
`compile` produces exactly one byte whose value reads the run as a binary
number, `.` = 0 and `*`/`@` = 1, first symbol most significant, by the
accumulation `value = 0; for each bit b: value = value*2 + b`. -/
theorem compile_packs_short_run (g : List Char) (h0 : g ≠ [])
    (hg : ∀ c ∈ g, isBitmapChar c = true) (hlen : g.length ≤ 8) :
    compile g = Except.ok [binVal g] := by
  have h1 := binVal_lt_two_pow g
  have h2 : 2 ^ g.length ≤ 2 ^ 8 := Nat.pow_le_pow_right (by norm_num) hlen
  have hv : binVal g < 256 :=
    lt_of_lt_of_le h1 (le_trans h2 (by norm_num))
  rw [compile_single g h0 hg, if_pos hv]

/-- Witness for C1 at the four-symbol run `*.*.`. -/
theorem compile_packs_short_run_witness :
    compile ['*', '.', '*', '.'] = Except.ok [binVal ['*', '.', '*', '.']] ∧
      binVal ['*', '.', '*', '.'] = 10 :=
  ⟨compile_packs_short_run _ (by decide) (by decide) (by decide), by rfl⟩

/-- C2 (amended): on every input on which `compile` returns normally, the
number of output bytes equals the number of lines, after the document-level
leading-whitespace strip, whose first character is `.`, `*`, or `@`; other
lines contribute zero bytes. -/
theorem compile_ok_length (s : List Char) (bs : List Nat)
    (h : compile s = Except.ok bs) : bs.length = recognizedCount s :=
  compileLines_ok_length _ bs h

/-- Witness for C2 on a document with one comment line and one glyph row. -/
theorem compile_ok_length_witness :
    compile "#\n.*\n".toList = Except.ok [1] ∧
      ([1] : List Nat).length = recognizedCount "#\n.*\n".toList :=
  ⟨by rfl, compile_ok_length _ [1] (by rfl)⟩

/-- C2 counterexample: on `"@........"` there is exactly one line whose
first character is recognized, yet `compile` raises instead of returning a
one-byte output, so the unrestricted byte-count equality fails. -/
theorem compile_error_despite_recognized_line :
    compile "@........".toList = Except.error () ∧
      recognizedCount "@........".toList = 1 :=
  ⟨by rfl, by rfl⟩

/-- C3 (amended): `compile` raises no error on any input whose recognized
runs all pack to values below 256 — malformed rows are silently skipped —
but a recognized run packing to 256 or more makes `int.to_bytes(1, ...)`
raise `OverflowError`; the value is never truncated or wrapped. -/
theorem compile_ok_of_rows_fit (s : List Char)
    (h : ∀ l ∈ splitlines (lstrip s),
      bitmapMatch l = [] ∨ binVal (bitmapMatch l) < 256) :
    ∃ bs, compile s = Except.ok bs :=
  compileLines_ok_of_fit _ h

/-- Witness for C3 on a document with a malformed row and a fitting row. -/
theorem compile_ok_of_rows_fit_witness :
    (∀ l ∈ splitlines (lstrip "#\n*@..\n".toList),
        bitmapMatch l = [] ∨ binVal (bitmapMatch l) < 256) ∧
      ∃ bs, compile "#\n*@..\n".toList = Except.ok bs :=
  ⟨by decide, compile_ok_of_rows_fit _ (by decide)⟩

/-- C3 counterexample: on the nine-symbol run `*........` the packed value
is 256, and `compile` raises `OverflowError` instead of truncating. -/
theorem compile_overflow_raises :
    compile "*........".toList = Except.error () := by rfl

/-- C4: for a line that is a single recognized run of length `n > 8`,
`compile` raises an overflow error iff one of the first `n - 8` symbols is
`*` or `@`; if those symbols are all `.`, the line still produces one byte
equal to the run's binary value, with no truncation performed. -/
theorem compile_overflow_iff (g : List Char)
    (hg : ∀ c ∈ g, isBitmapChar c = true) (hlen : 8 < g.length) :
    (compile g = Except.error () ↔
      ∃ c ∈ g.take (g.length - 8), c ≠ '.') ∧
    ((∀ c ∈ g.take (g.length - 8), c = '.') →
      compile g = Except.ok [binVal g]) := by
  have h0 : g ≠ [] := by
    intro e; subst e; simp at hlen
  have hsingle := compile_single g h0 hg
  have hdroplen : (g.drop (g.length - 8)).length = 8 := by
    rw [List.length_drop]; omega
  have hval : binVal g =
      binVal (g.take (g.length - 8)) * 256 +
        binVal (g.drop (g.length - 8)) := by
    conv_lhs => rw [← List.take_append_drop (g.length - 8) g]
    rw [binVal_append, hdroplen]
    norm_num
  have hdropval : binVal (g.drop (g.length - 8)) < 256 := by
    have h1 := binVal_lt_two_pow (g.drop (g.length - 8))
    rw [hdroplen] at h1
    exact lt_of_lt_of_le h1 (by norm_num)
  constructor
  · constructor
    · intro herr
      by_contra hno
      push_neg at hno
      have hz : binVal (g.take (g.length - 8)) = 0 := binVal_eq_zero _ hno
      have hsm : binVal g < 256 := by rw [hval, hz]; omega
      rw [hsingle, if_pos hsm] at herr
      simp at herr
    · rintro ⟨c, hcm, hcne⟩
      have hge : 1 ≤ binVal (g.take (g.length - 8)) :=
        one_le_binVal _ c hcm hcne
      have hbig : ¬ binVal g < 256 := by rw [hval]; omega
      rw [hsingle, if_neg hbig]
  · intro hall
    have hz : binVal (g.take (g.length - 8)) = 0 := binVal_eq_zero _ hall
    have hsm : binVal g < 256 := by rw [hval, hz]; omega
    rw [hsingle, if_pos hsm]

/-- Witness for C4 at the nine-symbol run `*........`. -/
theorem compile_overflow_iff_witness :
    ((∀ c ∈ "*........".toList, isBitmapChar c = true) ∧
      8 < "*........".toList.length) ∧
    ((compile "*........".toList = Except.error () ↔
        ∃ c ∈ "*........".toList.take ("*........".toList.length - 8),
          c ≠ '.') ∧
      ((∀ c ∈ "*........".toList.take ("*........".toList.length - 8),
          c = '.') →
        compile "*........".toList =
          Except.ok [binVal "*........".toList])) :=
  ⟨⟨by decide, by decide⟩, compile_overflow_iff _ (by decide) (by decide)⟩

/-- C5: the token compiled from a line is the longest run of `.`, `*`, `@`
anchored at the start of the line — trailing characters after the run do
not affect the output — and a line whose first character is outside the
recognized set contributes nothing. -/
theorem compile_matches_anchored_run :
    (∀ g t : List Char, g ≠ [] → (∀ c ∈ g, isBitmapChar c = true) →
      (∀ c ∈ t, isLineBreak c = false) →
      (∀ c, t.head? = some c → isBitmapChar c = false) →
      compile (g ++ t) = compile g) ∧
    (∀ (c : Char) (t : List Char), isBitmapChar c = false →
      pyIsSpace c = false → (∀ d ∈ c :: t, isLineBreak d = false) →
      compile (c :: t) = Except.ok []) := by
  constructor
  · intro g t h0 hg hbt hht
    cases g with
    | nil => exact absurd rfl h0
    | cons c cs =>
        have hc := hg c (by simp)
        have hl1 : lstrip ((c :: cs) ++ t) = (c :: cs) ++ t :=
          lstrip_cons_of_not_space c (cs ++ t) (not_space_of_bitmap c hc)
        have hs1 : splitlines ((c :: cs) ++ t) = [(c :: cs) ++ t] := by
          apply splitlines_no_break _ (by simp)
          intro e he
          rcases List.mem_append.mp he with h | h
          · exact not_break_of_bitmap e (hg e h)
          · exact hbt e h
        have hm1 : bitmapMatch ((c :: cs) ++ t) = c :: cs :=
          bitmapMatch_append _ t hg hht
        rw [compile_single (c :: cs) (by simp) hg]
        show compileLines (splitlines (lstrip ((c :: cs) ++ t))) = _
        rw [hl1, hs1]
        simp only [compileLines, hm1, packRun_eq_binVal]
  · intro c t hcb hcs hbr
    have hl : lstrip (c :: t) = c :: t := lstrip_cons_of_not_space c t hcs
    have hs : splitlines (c :: t) = [c :: t] :=
      splitlines_no_break _ (by simp) hbr
    have hm : bitmapMatch (c :: t) = [] := by
      simp [bitmapMatch, List.takeWhile_cons, hcb]
    show compileLines (splitlines (lstrip (c :: t))) = _
    rw [hl, hs]
    simp only [compileLines, hm]

/-- Witness for C5: `..x@@` compiles the run `..` alone, and `x..`
contributes nothing. -/
theorem compile_matches_anchored_run_witness :
    compile ['.', '.', 'x', '@', '@'] = compile ['.', '.'] ∧
      compile ['.', '.'] = Except.ok [0] ∧
      compile ['x', '.', '.'] = Except.ok [] := by
  refine ⟨?_, by rfl, ?_⟩
  · exact compile_matches_anchored_run.1 ['.', '.'] ['x', '@', '@']
      (by decide) (by decide) (by decide) (by decide)
  · exact compile_matches_anchored_run.2 'x' ['.', '.']
      (by decide) (by decide) (by decide)

/-- C6: leading whitespace is stripped once from the whole document —
prepending any all-whitespace text leaves the output unchanged — while
whitespace after the first non-whitespace character is not trimmed
(`* *` keeps its inner space and packs only the leading `*`). -/
theorem compile_ignores_leading_whitespace :
    (∀ w s : List Char, (∀ c ∈ w, pyIsSpace c = true) →
      compile (w ++ s) = compile s) ∧
    compile ['*', ' ', '*'] = Except.ok [1] ∧
    compile ['*', '*'] = Except.ok [3] := by
  refine ⟨?_, by rfl, by rfl⟩
  intro w s hw
  have hd : (w ++ s).dropWhile pyIsSpace = s.dropWhile pyIsSpace := by
    induction w with
    | nil => simp
    | cons c cw ih =>
        have hc := hw c (by simp)
        simp only [List.cons_append, List.dropWhile_cons, hc, if_pos]
        exact ih (fun d hdm => hw d (List.mem_cons_of_mem _ hdm))
  show compileLines (splitlines ((w ++ s).dropWhile pyIsSpace)) = _
  rw [hd]
  rfl

/-- Witness for C6: two leading whitespace characters are stripped. -/
theorem compile_ignores_leading_whitespace_witness :
    compile ([' ', '\n'] ++ ['.', '*']) = compile ['.', '*'] ∧
      compile ['.', '*'] = Except.ok [1] :=
  ⟨compile_ignores_leading_whitespace.1 [' ', '\n'] ['.', '*'] (by decide),
    by rfl⟩

/-- C7 (amended): the five-row diagonal document compiles to the five
bytes 0x00, 0x08, 0x04, 0x02, 0x01 — each four-symbol run packs into the
low four bits. -/
theorem compile_diag_example :
    compile "....\n*...\n.*..\n..*.\n...*\n".toList =
      Except.ok [0x00, 0x08, 0x04, 0x02, 0x01] := by rfl

/-- C7 counterexample: the diagonal document does not compile to the
claimed bytes 0x00, 0x80, 0x40, 0x20, 0x10. -/
theorem compile_diag_not_high_bits :
    compile "....\n*...\n.*..\n..*.\n...*\n".toList ≠
      Except.ok [0x00, 0x80, 0x40, 0x20, 0x10] := by
  intro h
  have h1 : compile "....\n*...\n.*..\n..*.\n...*\n".toList =
      Except.ok [0, 8, 4, 2, 1] := by rfl
  rw [h1] at h
  simp at h

/-- C8: a document with a comment line and the row `@.......` yields the
single byte 0x80; the comment line is skipped. -/
theorem compile_comment_example :
    compile "# comment\n@.......\n".toList = Except.ok [0x80] := by rfl

/-- C9: the symbols `*` and `@` are interchangeable — replacing any
occurrences of one by the other anywhere in the input (any two inputs that
agree up to such swaps) yields identical output. -/
theorem compile_on_symbols_interchangeable (s t : List Char)
    (h : List.Forall₂ charEquiv s t) : compile s = compile t := by
  have hmap : s.map normOn = t.map normOn := by
    induction h with
    | nil => rfl
    | cons hcd _ ih =>
        simp only [List.map_cons, ih]
        rw [normOn_eq_of_equiv _ _ hcd]
  calc compile s = compile (s.map normOn) := (compile_map_normOn s).symm
    _ = compile (t.map normOn) := by rw [hmap]
    _ = compile t := compile_map_normOn t

/-- Witness for C9: `*@` and `@*` compile to the same single byte. -/
theorem compile_on_symbols_interchangeable_witness :
    compile ['*', '@'] = compile ['@', '*'] ∧
      compile ['*', '@'] = Except.ok [3] :=
  ⟨compile_on_symbols_interchangeable _ _
      (List.Forall₂.cons (Or.inr ⟨Or.inl rfl, Or.inr rfl⟩)
        (List.Forall₂.cons (Or.inr ⟨Or.inr rfl, Or.inl rfl⟩)
          List.Forall₂.nil)),
    by rfl⟩

/-- C10: `compile` is deterministic and pure — as a function of the source
text alone, two invocations on the same text yield identical output. -/
theorem compile_deterministic (s t : List Char) (h : s = t) :
    compile s = compile t := congrArg compile h

/-- Witness for C10 at a concrete document. -/
theorem compile_deterministic_witness :
    compile ['.', '*'] = compile ['.', '*'] ∧
      compile ['.', '*'] = Except.ok [1] :=
  ⟨compile_deterministic _ _ rfl, by rfl⟩
